import Mathlib

/-!
Verification of the referral-tracking core of `referral_bot.py`.

The SQLite table `users (user_id INTEGER PRIMARY KEY, invited_by INTEGER,
referrals INTEGER DEFAULT 0, goal_achieved_notified INTEGER DEFAULT 0)` is
embedded as a list of rows; each database function of the source becomes a
pure function on that list, with the SQL statements it issues modelled
row-by-row (`UPDATE ... WHERE user_id = ?` maps over all rows matching the
key, `SELECT ... fetchone` is `List.find?`).
-/

/-- One row of the `users` table. -/
structure UserRecord where
  user_id : Int
  invited_by : Option Int
  referrals : Nat
  goal_achieved_notified : Bool
deriving DecidableEq, Repr

/-- The `users` table, as the list of its rows. -/
abbrev Store := List UserRecord

/-- The goal threshold `REFERRAL_GOAL = 10` from the source configuration. -/
def REFERRAL_GOAL : Nat := 10

/-- Model of `SELECT ... FROM users WHERE user_id = ?` followed by `fetchone()`. -/
def findUser (s : Store) (uid : Int) : Option UserRecord :=
  s.find? (fun v => v.user_id == uid)

/-- Model of `UPDATE users SET invited_by = ? WHERE user_id = ?`. -/
def set_invited_by (s : Store) (uid inv : Int) : Store :=
  s.map (fun v => if v.user_id == uid then { v with invited_by := some inv } else v)

/-- Model of `UPDATE users SET referrals = referrals + 1 WHERE user_id = ?`. -/
def increment_referrals (s : Store) (uid : Int) : Store :=
  s.map (fun v => if v.user_id == uid then { v with referrals := v.referrals + 1 } else v)

/-- Model of `UPDATE users SET goal_achieved_notified = 1 WHERE user_id = ?`. -/
def set_goal_notified (s : Store) (uid : Int) : Store :=
  s.map (fun v => if v.user_id == uid then { v with goal_achieved_notified := true } else v)

/-- Model of `add_user`: `INSERT OR IGNORE INTO users (user_id) VALUES (?)`; the other
columns take their declared defaults (`NULL`, `0`, `0`). -/
def add_user (s : Store) (user_id : Int) : Store :=
  if (findUser s user_id).isSome then s
  else s ++ [⟨user_id, none, 0, false⟩]

/-- Model of `process_referral(user_id, inviter_id)`: reads the new user's row; when it
exists, its `invited_by` is NULL and `user_id != inviter_id`, it sets
`invited_by = inviter_id` on the new user's row, increments the inviter's
`referrals`, and returns `True`; in every other case it returns `False`
leaving the table unchanged. -/
def process_referral (s : Store) (user_id inviter_id : Int) : Bool × Store :=
  match findUser s user_id with
  | some r =>
      if r.invited_by = none ∧ user_id ≠ inviter_id then
        (true, increment_referrals (set_invited_by s user_id inviter_id) inviter_id)
      else (false, s)
  | none => (false, s)

/-- Model of `check_and_notify_on_goal(bot, inviter_id)`: when the inviter's row exists
with `referrals >= REFERRAL_GOAL` and the flag still unset, it attempts the
notification (`notifyOk` abstracts whether `bot.send_message` succeeds or
raises) and sets `goal_achieved_notified = 1` only on success; the raised
exception is swallowed by the `except` clause. The boolean output records
whether the notifier was invoked at all. -/
def check_and_notify_on_goal (s : Store) (inviter_id : Int) (notifyOk : Bool) : Store × Bool :=
  match findUser s inviter_id with
  | none => (s, false)
  | some r =>
      if REFERRAL_GOAL ≤ r.referrals ∧ r.goal_achieved_notified = false then
        if notifyOk then (set_goal_notified s inviter_id, true) else (s, true)
      else (s, false)

/-- Model of `get_user_referrals`: `result[0] if result else 0`. -/
def get_user_referrals (s : Store) (user_id : Int) : Nat :=
  match findUser s user_id with
  | some r => r.referrals
  | none => 0

/-- The `invited_by` column of a user's row (`none` when the row is absent). -/
def invited_by_of (s : Store) (uid : Int) : Option Int :=
  match findUser s uid with
  | some r => r.invited_by
  | none => none

/-- The `goal_achieved_notified` column of a user's row (`false` when absent). -/
def notified_of (s : Store) (uid : Int) : Bool :=
  match findUser s uid with
  | some r => r.goal_achieved_notified
  | none => false

/-- One call into the database layer: `add_user`, `process_referral`, or
`check_and_notify_on_goal` together with the notifier outcome it will see. -/
inductive Op where
  | ensure (uid : Int)
  | attr (uid inviter : Int)
  | check (inviter : Int) (notifyOk : Bool)
deriving DecidableEq, Repr

/-- The table state after one call. -/
def applyOp (s : Store) : Op → Store
  | .ensure uid => add_user s uid
  | .attr uid inv => (process_referral s uid inv).2
  | .check inv ok => (check_and_notify_on_goal s inv ok).1

/-- The table state after a sequence of calls. -/
def runOps (s : Store) (ops : List Op) : Store :=
  List.foldl applyOp s ops

/-- The spec's precondition on each call: for `attribute`, both rows already
exist; the other calls have no precondition. -/
def opPre (s : Store) : Op → Bool
  | .attr uid inv => (findUser s uid).isSome && (findUser s inv).isSome
  | _ => true

/-- All preconditions hold at their point in the run. -/
def preOK : Store → List Op → Bool
  | _, [] => true
  | s, op :: ops => opPre s op && preOK (applyOp s op) ops

/-- Whether this call invokes the notifier for inviter `i`. -/
def invokesFor (s : Store) (op : Op) (i : Int) : Bool :=
  match op with
  | .check j ok => j == i && (check_and_notify_on_goal s j ok).2
  | _ => false

/-- Whether some call in the run invokes the notifier for inviter `i`. -/
def anyInvocation : Store → List Op → Int → Bool
  | _, [], _ => false
  | s, op :: ops, i => invokesFor s op i || anyInvocation (applyOp s op) ops i

/-- The PRIMARY KEY constraint: no two rows share a `user_id`. -/
def nodupKeys (s : Store) : Prop := (s.map UserRecord.user_id).Nodup

/-- Every non-null `invited_by` references an existing row. -/
def invitersExist (s : Store) : Prop :=
  ∀ r ∈ s, ∀ j, r.invited_by = some j → (findUser s j).isSome

/-- Each row's `referrals` equals the number of rows whose `invited_by` points
at it. -/
def countInv (s : Store) : Prop :=
  ∀ r ∈ s, r.referrals = List.countP (fun v => v.invited_by == some r.user_id) s

/-- The inductive invariant carried through every run. -/
def storeInv (s : Store) : Prop := nodupKeys s ∧ invitersExist s ∧ countInv s

/-- The combined row-wise effect of one successful attribution (`u ≠ v`):
the new user's row gets `invited_by = v`, the inviter's row gets its counter
bumped, every other row is untouched. -/
def attr_update (u v : Int) (x : UserRecord) : UserRecord :=
  if x.user_id == u then { x with invited_by := some v }
  else if x.user_id == v then { x with referrals := x.referrals + 1 }
  else x

/-- A row returned by the key lookup belongs to the table and has that key. -/
theorem findUser_eq_some {s : Store} {uid : Int} {r : UserRecord}
    (h : findUser s uid = some r) : r ∈ s ∧ r.user_id = uid := by
  refine ⟨List.mem_of_find?_eq_some h, ?_⟩
  have hb := List.find?_some h
  simpa using hb

/-- The key lookup fails exactly when no row has the key. -/
theorem findUser_eq_none {s : Store} {uid : Int} :
    findUser s uid = none ↔ ∀ r ∈ s, r.user_id ≠ uid := by
  unfold findUser
  rw [List.find?_eq_none]
  simp

/-- The key lookup succeeds exactly when some row has the key. -/
theorem findUser_isSome {s : Store} {uid : Int} :
    (findUser s uid).isSome ↔ ∃ r ∈ s, r.user_id = uid := by
  cases h : findUser s uid with
  | none =>
      simp only [Option.isSome_none, Bool.false_eq_true, false_iff]
      intro ⟨r, hr, hk⟩
      exact findUser_eq_none.mp h r hr hk
  | some r =>
      simp only [Option.isSome_some, true_iff]
      exact ⟨r, (findUser_eq_some h).1, (findUser_eq_some h).2⟩

/-- Lookup over an appended table tries the left part first. -/
theorem findUser_append (s t : Store) (uid : Int) :
    findUser (s ++ t) uid = (findUser s uid).or (findUser t uid) :=
  List.find?_append

/-- Lookup commutes with any row-wise update that preserves keys. -/
theorem findUser_map (f : UserRecord → UserRecord)
    (hf : ∀ v, (f v).user_id = v.user_id) (s : Store) (uid : Int) :
    findUser (s.map f) uid = Option.map f (findUser s uid) := by
  unfold findUser
  have hpf : ((fun v : UserRecord => v.user_id == uid) ∘ f)
      = (fun v : UserRecord => v.user_id == uid) := by
    funext v
    simp [Function.comp, hf]
  rw [List.find?_map, hpf]

/-- Lookup after `set_invited_by`. -/
theorem findUser_set_invited_by (s : Store) (a b uid : Int) :
    findUser (set_invited_by s a b) uid =
      Option.map (fun v => if v.user_id == a then { v with invited_by := some b } else v)
        (findUser s uid) := by
  unfold set_invited_by
  exact findUser_map _ (fun v => by split <;> rfl) s uid

/-- Lookup after `increment_referrals`. -/
theorem findUser_increment_referrals (s : Store) (a uid : Int) :
    findUser (increment_referrals s a) uid =
      Option.map (fun v => if v.user_id == a then { v with referrals := v.referrals + 1 } else v)
        (findUser s uid) := by
  unfold increment_referrals
  exact findUser_map _ (fun v => by split <;> rfl) s uid

/-- Lookup after `set_goal_notified`. -/
theorem findUser_set_goal_notified (s : Store) (a uid : Int) :
    findUser (set_goal_notified s a) uid =
      Option.map (fun v => if v.user_id == a then { v with goal_achieved_notified := true } else v)
        (findUser s uid) := by
  unfold set_goal_notified
  exact findUser_map _ (fun v => by split <;> rfl) s uid

/-- An `UPDATE` keyed on an absent `user_id` touches no row. -/
theorem increment_referrals_of_absent {s : Store} {i : Int}
    (h : findUser s i = none) : increment_referrals s i = s := by
  have h' := findUser_eq_none.mp h
  unfold increment_referrals
  have hid : ∀ v ∈ s,
      (if v.user_id == i then { v with referrals := v.referrals + 1 } else v) = id v := by
    intro v hv
    simp [h' v hv]
  rw [List.map_congr_left hid, List.map_id]

example : add_user [] 1 = [⟨1, none, 0, false⟩] := by decide

example :
    process_referral [⟨1, none, 0, false⟩, ⟨2, none, 0, false⟩] 2 1
      = (true, [⟨1, none, 1, false⟩, ⟨2, some 1, 0, false⟩]) := by decide

example :
    check_and_notify_on_goal [⟨1, none, 10, false⟩] 1 true
      = ([⟨1, none, 10, true⟩], true) := by decide

example : get_user_referrals [⟨1, none, 7, false⟩] 2 = 0 := by decide

/-- C6: `process_referral(A, A)` returns `False` and leaves the table exactly
as it was, for every table state; self-referral is a defined rejection, not
an error. -/
theorem self_referral_rejected (s : Store) (A : Int) :
    process_referral s A A = (false, s) := by
  unfold process_referral
  cases h : findUser s A with
  | none => rfl
  | some r => simp

/-- The call `add_user` on an existing row is a no-op. -/
theorem add_user_of_exists {s : Store} {uid : Int}
    (h : (findUser s uid).isSome = true) : add_user s uid = s := by
  simp [add_user, h]

/-- The call `add_user` on an absent key appends the default row. -/
theorem add_user_of_absent {s : Store} {uid : Int}
    (h : findUser s uid = none) : add_user s uid = s ++ [⟨uid, none, 0, false⟩] := by
  simp [add_user, h]

/-- After `add_user`, the row for that key exists. -/
theorem findUser_add_user_self (s : Store) (uid : Int) :
    (findUser (add_user s uid) uid).isSome = true := by
  by_cases h : (findUser s uid).isSome = true
  · rw [add_user_of_exists h]
    exact h
  · have h0 : findUser s uid = none := Option.not_isSome_iff_eq_none.mp (by simpa using h)
    rw [add_user_of_absent h0, findUser_append, h0, Option.none_or]
    unfold findUser
    rw [List.find?_cons_of_pos _ (by simp)]
    rfl

/-- C8: `add_user` is a no-op when the row exists (whatever its field values),
creates the row with default columns when absent, and is idempotent. -/
theorem add_user_idempotent :
    (∀ s uid, (findUser s uid).isSome = true → add_user s uid = s)
  ∧ (∀ s uid, findUser s uid = none →
      add_user s uid = s ++ [⟨uid, none, 0, false⟩])
  ∧ (∀ s uid, add_user (add_user s uid) uid = add_user s uid) := by
  refine ⟨fun s uid h => add_user_of_exists h, fun s uid h => add_user_of_absent h, ?_⟩
  intro s uid
  exact add_user_of_exists (findUser_add_user_self s uid)

/-- C8 witness: concrete instances of the three parts, including a no-op on a
row with non-default field values. -/
theorem add_user_idempotent_witness :
    add_user [⟨5, some 1, 3, true⟩] 5 = [⟨5, some 1, 3, true⟩]
  ∧ add_user [] 7 = [] ++ [⟨7, none, 0, false⟩]
  ∧ add_user (add_user [] 7) 7 = add_user [] 7 :=
  ⟨add_user_idempotent.1 [⟨5, some 1, 3, true⟩] 5 (by decide),
   add_user_idempotent.2.1 [] 7 (by decide),
   add_user_idempotent.2.2 [] 7⟩

/-- C9: `get_user_referrals` returns the stored `referrals` when the row
exists and `0` when it does not; as a total pure function of the table it
never errors and never modifies the table. -/
theorem get_referrals_total :
    (∀ s uid r, findUser s uid = some r → get_user_referrals s uid = r.referrals)
  ∧ (∀ s uid, findUser s uid = none → get_user_referrals s uid = 0) := by
  constructor
  · intro s uid r h
    unfold get_user_referrals
    rw [h]
  · intro s uid h
    unfold get_user_referrals
    rw [h]

/-- C9 witness: both branches at concrete tables. -/
theorem get_referrals_total_witness :
    get_user_referrals [⟨1, none, 7, false⟩] 1 = 7
  ∧ get_user_referrals [⟨1, none, 7, false⟩] 2 = 0 :=
  ⟨get_referrals_total.1 [⟨1, none, 7, false⟩] 1 ⟨1, none, 7, false⟩ (by decide),
   get_referrals_total.2 [⟨1, none, 7, false⟩] 2 (by decide)⟩

/-- The success branch of `process_referral`, spelled out. -/
theorem process_referral_success {s : Store} {A I : Int} {rA : UserRecord}
    (hA : findUser s A = some rA) (hnull : rA.invited_by = none) (hne : A ≠ I) :
    process_referral s A I = (true, increment_referrals (set_invited_by s A I) I) := by
  unfold process_referral
  rw [hA]
  simp [hnull, hne]

/-- C10: when the new user's row exists with NULL `invited_by` and the ids
differ but the inviter has no row, `process_referral` still returns `True`
and records the link, while the `referrals` counter of every user is
unchanged (the inviter's `UPDATE` matches no row). -/
theorem missing_inviter_attribution (s : Store) (A I : Int) (rA : UserRecord)
    (hA : findUser s A = some rA) (hnull : rA.invited_by = none)
    (hne : A ≠ I) (hI : findUser s I = none) :
    (process_referral s A I).1 = true
  ∧ invited_by_of (process_referral s A I).2 A = some I
  ∧ ∀ X, get_user_referrals (process_referral s A I).2 X = get_user_referrals s X := by
  have hres := process_referral_success hA hnull hne
  have hkeyA : rA.user_id = A := (findUser_eq_some hA).2
  have hIset : findUser (set_invited_by s A I) I = none := by
    rw [findUser_set_invited_by, hI]
    rfl
  have hinc : increment_referrals (set_invited_by s A I) I = set_invited_by s A I :=
    increment_referrals_of_absent hIset
  have h1 : invited_by_of (increment_referrals (set_invited_by s A I) I) A = some I := by
    rw [hinc]
    unfold invited_by_of
    rw [findUser_set_invited_by, hA]
    simp [hkeyA]
  have h2 : ∀ X, get_user_referrals (increment_referrals (set_invited_by s A I) I) X
      = get_user_referrals s X := by
    intro X
    rw [hinc]
    unfold get_user_referrals
    rw [findUser_set_invited_by]
    cases hX : findUser s X with
    | none => rfl
    | some r =>
        have : (if r.user_id == A then { r with invited_by := some I } else r).referrals
            = r.referrals := by split <;> rfl
        simpa using this
  rw [hres]
  exact ⟨rfl, h1, h2⟩

/-- C10 witness: inviter `9` has no row; the link is recorded, the first
user's counter query is unchanged. -/
theorem missing_inviter_attribution_witness :
    (process_referral [⟨1, none, 0, false⟩] 1 9).1 = true
  ∧ invited_by_of (process_referral [⟨1, none, 0, false⟩] 1 9).2 1 = some 9
  ∧ get_user_referrals (process_referral [⟨1, none, 0, false⟩] 1 9).2 9
      = get_user_referrals [⟨1, none, 0, false⟩] 9 :=
  ⟨(missing_inviter_attribution [⟨1, none, 0, false⟩] 1 9 ⟨1, none, 0, false⟩
      (by decide) (by decide) (by decide) (by decide)).1,
   (missing_inviter_attribution [⟨1, none, 0, false⟩] 1 9 ⟨1, none, 0, false⟩
      (by decide) (by decide) (by decide) (by decide)).2.1,
   (missing_inviter_attribution [⟨1, none, 0, false⟩] 1 9 ⟨1, none, 0, false⟩
      (by decide) (by decide) (by decide) (by decide)).2.2 9⟩

/-- After a successful attribution of `A` to `B`, `A`'s row carries
`invited_by = B` and is otherwise unchanged. -/
theorem findUser_after_success {s : Store} {A B : Int} {rA : UserRecord}
    (hA : findUser s A = some rA) (hAB : A ≠ B) :
    findUser (increment_referrals (set_invited_by s A B) B) A
      = some { rA with invited_by := some B } := by
  have hkeyA : rA.user_id = A := (findUser_eq_some hA).2
  rw [findUser_increment_referrals, findUser_set_invited_by, hA]
  simp [hkeyA, hAB]

/-- After a successful attribution of `A` to `B`, `B`'s row has its counter
incremented by one and is otherwise unchanged. -/
theorem findUser_after_success_inviter {s : Store} {A B : Int} {rB : UserRecord}
    (hB : findUser s B = some rB) (hAB : A ≠ B) :
    findUser (increment_referrals (set_invited_by s A B) B) B
      = some { rB with referrals := rB.referrals + 1 } := by
  have hkeyB : rB.user_id = B := (findUser_eq_some hB).2
  have hBA : B ≠ A := fun h => hAB h.symm
  rw [findUser_increment_referrals, findUser_set_invited_by, hB]
  simp [hkeyB, hBA]

/-- Rows keyed neither `A` nor `B` are untouched by a successful attribution. -/
theorem findUser_after_success_other {s : Store} {A B : Int} (X : Int)
    (hXA : X ≠ A) (hXB : X ≠ B) :
    findUser (increment_referrals (set_invited_by s A B) B) X = findUser s X := by
  rw [findUser_increment_referrals, findUser_set_invited_by]
  cases hX : findUser s X with
  | none => rfl
  | some r =>
      have hkey : r.user_id = X := (findUser_eq_some hX).2
      simp [hkey, hXA, hXB]

/-- C2: with `A`'s row present and unattributed and `B`'s row present,
`attribute(A, B)` then `attribute(A, C)` (all of `A`, `B`, `C` distinct):
the first call succeeds, links `A` to `B` and bumps `B`'s counter; the second
call returns `False` and changes nothing. In general, any call for a user
whose `invited_by` is already non-null returns `False` with no state change,
whatever the inviter argument. -/
theorem first_attribution_wins :
    (∀ (s : Store) (A B C : Int) (rA rB : UserRecord),
      findUser s A = some rA → rA.invited_by = none →
      findUser s B = some rB → A ≠ B → A ≠ C → B ≠ C →
      (process_referral s A B).1 = true
      ∧ invited_by_of (process_referral s A B).2 A = some B
      ∧ get_user_referrals (process_referral s A B).2 B = get_user_referrals s B + 1
      ∧ (process_referral (process_referral s A B).2 A C).1 = false
      ∧ (process_referral (process_referral s A B).2 A C).2 = (process_referral s A B).2
      ∧ invited_by_of (process_referral (process_referral s A B).2 A C).2 A = some B
      ∧ get_user_referrals (process_referral (process_referral s A B).2 A C).2 C
          = get_user_referrals (process_referral s A B).2 C)
  ∧ (∀ (s : Store) (A B : Int) (rA : UserRecord),
      findUser s A = some rA → rA.invited_by ≠ none →
      process_referral s A B = (false, s)) := by
  have hreject : ∀ (s : Store) (A B : Int) (rA : UserRecord),
      findUser s A = some rA → rA.invited_by ≠ none →
      process_referral s A B = (false, s) := by
    intro s A B rA hA hnn
    unfold process_referral
    rw [hA]
    simp [hnn]
  refine ⟨?_, hreject⟩
  intro s A B C rA rB hA hnull hB hAB hAC hBC
  have hres := process_referral_success hA hnull hAB
  have hfA := findUser_after_success hA hAB
  have hfB := findUser_after_success_inviter hB hAB
  have h1 : invited_by_of (increment_referrals (set_invited_by s A B) B) A = some B := by
    unfold invited_by_of
    rw [hfA]
  have h2 : get_user_referrals (increment_referrals (set_invited_by s A B) B) B
      = get_user_referrals s B + 1 := by
    unfold get_user_referrals
    rw [hfB, hB]
  have h3 : process_referral (increment_referrals (set_invited_by s A B) B) A C
      = (false, increment_referrals (set_invited_by s A B) B) :=
    hreject _ A C { rA with invited_by := some B } hfA (by simp)
  rw [hres]
  exact ⟨rfl, h1, h2, by rw [h3], by rw [h3], by rw [h3]; exact h1, by rw [h3]⟩

/-- C2 witness: the two-call scenario at a concrete table, plus a rejection
on an already-attributed user with a different inviter. -/
theorem first_attribution_wins_witness :
    ((process_referral [⟨1, none, 0, false⟩, ⟨2, none, 4, false⟩] 1 2).1 = true
  ∧ invited_by_of (process_referral [⟨1, none, 0, false⟩, ⟨2, none, 4, false⟩] 1 2).2 1 = some 2
  ∧ get_user_referrals (process_referral [⟨1, none, 0, false⟩, ⟨2, none, 4, false⟩] 1 2).2 2
      = get_user_referrals [⟨1, none, 0, false⟩, ⟨2, none, 4, false⟩] 2 + 1
  ∧ (process_referral (process_referral [⟨1, none, 0, false⟩, ⟨2, none, 4, false⟩] 1 2).2 1 3).1
      = false
  ∧ (process_referral (process_referral [⟨1, none, 0, false⟩, ⟨2, none, 4, false⟩] 1 2).2 1 3).2
      = (process_referral [⟨1, none, 0, false⟩, ⟨2, none, 4, false⟩] 1 2).2
  ∧ invited_by_of
      (process_referral (process_referral [⟨1, none, 0, false⟩, ⟨2, none, 4, false⟩] 1 2).2 1 3).2
      1 = some 2
  ∧ get_user_referrals
      (process_referral (process_referral [⟨1, none, 0, false⟩, ⟨2, none, 4, false⟩] 1 2).2 1 3).2
      3 = get_user_referrals (process_referral [⟨1, none, 0, false⟩, ⟨2, none, 4, false⟩] 1 2).2 3)
  ∧ process_referral [⟨7, some 5, 0, false⟩] 7 6 = (false, [⟨7, some 5, 0, false⟩]) :=
  ⟨first_attribution_wins.1 [⟨1, none, 0, false⟩, ⟨2, none, 4, false⟩] 1 2 3
      ⟨1, none, 0, false⟩ ⟨2, none, 4, false⟩
      (by decide) (by decide) (by decide) (by decide) (by decide) (by decide),
   first_attribution_wins.2 [⟨7, some 5, 0, false⟩] 7 6 ⟨7, some 5, 0, false⟩
      (by decide) (by decide)⟩

/-- C3: with both rows present, ids distinct and the new user unattributed,
`process_referral` returns `True`, sets `invited_by = inviter_id` on the new
user's row leaving its other columns intact, adds exactly one to the
inviter's `referrals` leaving its other columns intact, and leaves every
other row exactly as it was. -/
theorem successful_attribution_effects (s : Store) (A I : Int) (rA rI : UserRecord)
    (hA : findUser s A = some rA) (hnull : rA.invited_by = none)
    (hI : findUser s I = some rI) (hne : A ≠ I) :
    (process_referral s A I).1 = true
  ∧ findUser (process_referral s A I).2 A = some { rA with invited_by := some I }
  ∧ findUser (process_referral s A I).2 I = some { rI with referrals := rI.referrals + 1 }
  ∧ ∀ X, X ≠ A → X ≠ I → findUser (process_referral s A I).2 X = findUser s X := by
  have hres := process_referral_success hA hnull hne
  rw [hres]
  exact ⟨rfl, findUser_after_success hA hne, findUser_after_success_inviter hI hne,
    fun X hXA hXI => findUser_after_success_other X hXA hXI⟩

/-- C3 witness: concrete success with a bystander row untouched. -/
theorem successful_attribution_effects_witness :
    (process_referral [⟨1, none, 0, false⟩, ⟨2, some 1, 6, true⟩, ⟨3, none, 0, false⟩] 1 2).1
      = true
  ∧ findUser (process_referral [⟨1, none, 0, false⟩, ⟨2, some 1, 6, true⟩, ⟨3, none, 0, false⟩]
      1 2).2 1 = some ⟨1, some 2, 0, false⟩
  ∧ findUser (process_referral [⟨1, none, 0, false⟩, ⟨2, some 1, 6, true⟩, ⟨3, none, 0, false⟩]
      1 2).2 2 = some ⟨2, some 1, 7, true⟩
  ∧ findUser (process_referral [⟨1, none, 0, false⟩, ⟨2, some 1, 6, true⟩, ⟨3, none, 0, false⟩]
      1 2).2 3
      = findUser [⟨1, none, 0, false⟩, ⟨2, some 1, 6, true⟩, ⟨3, none, 0, false⟩] 3 :=
  ⟨(successful_attribution_effects [⟨1, none, 0, false⟩, ⟨2, some 1, 6, true⟩, ⟨3, none, 0, false⟩]
      1 2 ⟨1, none, 0, false⟩ ⟨2, some 1, 6, true⟩ (by decide) (by decide) (by decide)
      (by decide)).1,
   (successful_attribution_effects [⟨1, none, 0, false⟩, ⟨2, some 1, 6, true⟩, ⟨3, none, 0, false⟩]
      1 2 ⟨1, none, 0, false⟩ ⟨2, some 1, 6, true⟩ (by decide) (by decide) (by decide)
      (by decide)).2.1,
   (successful_attribution_effects [⟨1, none, 0, false⟩, ⟨2, some 1, 6, true⟩, ⟨3, none, 0, false⟩]
      1 2 ⟨1, none, 0, false⟩ ⟨2, some 1, 6, true⟩ (by decide) (by decide) (by decide)
      (by decide)).2.2.1,
   (successful_attribution_effects [⟨1, none, 0, false⟩, ⟨2, some 1, 6, true⟩, ⟨3, none, 0, false⟩]
      1 2 ⟨1, none, 0, false⟩ ⟨2, some 1, 6, true⟩ (by decide) (by decide) (by decide)
      (by decide)).2.2.2 3 (by decide) (by decide)⟩

/-- Qualifying inviter, notifier fails: the call swallows the exception and
returns with the table untouched (the notifier was still invoked). -/
theorem check_qualifying_fail {s : Store} {i : Int} {r : UserRecord}
    (h : findUser s i = some r) (hgoal : REFERRAL_GOAL ≤ r.referrals)
    (hflag : r.goal_achieved_notified = false) :
    check_and_notify_on_goal s i false = (s, true) := by
  unfold check_and_notify_on_goal
  rw [h]
  simp [hgoal, hflag]

/-- Qualifying inviter, notifier succeeds: the flag is set. -/
theorem check_qualifying_ok {s : Store} {i : Int} {r : UserRecord}
    (h : findUser s i = some r) (hgoal : REFERRAL_GOAL ≤ r.referrals)
    (hflag : r.goal_achieved_notified = false) :
    check_and_notify_on_goal s i true = (set_goal_notified s i, true) := by
  unfold check_and_notify_on_goal
  rw [h]
  simp [hgoal, hflag]

/-- Setting the flag on an existing row makes its flag read back `true`. -/
theorem notified_of_set_goal_self {s : Store} {i : Int} {r : UserRecord}
    (h : findUser s i = some r) : notified_of (set_goal_notified s i) i = true := by
  have hkey : r.user_id = i := (findUser_eq_some h).2
  unfold notified_of
  rw [findUser_set_goal_notified, h]
  simp [hkey]

/-- C5: for a qualifying inviter (counter at goal, flag unset), a failed
notifier call leaves the table exactly as it was and returns normally; a
later evaluation with a succeeding notifier then delivers and sets the flag. -/
theorem notifier_failure_leaves_state (s : Store) (i : Int) (r : UserRecord)
    (h : findUser s i = some r) (hgoal : REFERRAL_GOAL ≤ r.referrals)
    (hflag : r.goal_achieved_notified = false) :
    check_and_notify_on_goal s i false = (s, true)
  ∧ (check_and_notify_on_goal (check_and_notify_on_goal s i false).1 i true).2 = true
  ∧ notified_of (check_and_notify_on_goal (check_and_notify_on_goal s i false).1 i true).1 i
      = true := by
  have h1 := check_qualifying_fail h hgoal hflag
  have h2 := check_qualifying_ok h hgoal hflag
  have h3 := notified_of_set_goal_self h
  refine ⟨h1, ?_, ?_⟩
  · rw [h1]
    show (check_and_notify_on_goal s i true).2 = true
    rw [h2]
  · rw [h1]
    show notified_of (check_and_notify_on_goal s i true).1 i = true
    rw [h2]
    exact h3

/-- C5 witness: inviter at the goal with the flag unset; failure changes
nothing, the retry delivers. -/
theorem notifier_failure_leaves_state_witness :
    check_and_notify_on_goal [⟨1, none, 10, false⟩] 1 false = ([⟨1, none, 10, false⟩], true)
  ∧ (check_and_notify_on_goal
      (check_and_notify_on_goal [⟨1, none, 10, false⟩] 1 false).1 1 true).2 = true
  ∧ notified_of (check_and_notify_on_goal
      (check_and_notify_on_goal [⟨1, none, 10, false⟩] 1 false).1 1 true).1 1 = true :=
  ⟨(notifier_failure_leaves_state [⟨1, none, 10, false⟩] 1 ⟨1, none, 10, false⟩
      (by decide) (by decide) (by decide)).1,
   (notifier_failure_leaves_state [⟨1, none, 10, false⟩] 1 ⟨1, none, 10, false⟩
      (by decide) (by decide) (by decide)).2.1,
   (notifier_failure_leaves_state [⟨1, none, 10, false⟩] 1 ⟨1, none, 10, false⟩
      (by decide) (by decide) (by decide)).2.2⟩

/-- A key-preserving row-wise update that keeps the flag keeps every flag
read-back. -/
theorem notified_of_map (f : UserRecord → UserRecord)
    (hk : ∀ v, (f v).user_id = v.user_id)
    (hg : ∀ v, (f v).goal_achieved_notified = v.goal_achieved_notified)
    (s : Store) (i : Int) : notified_of (s.map f) i = notified_of s i := by
  unfold notified_of
  rw [findUser_map f hk]
  cases hfi : findUser s i with
  | none => rfl
  | some w => simpa using hg w

/-- The call `add_user` never changes any `goal_achieved_notified` read-back. -/
theorem notified_of_add_user (s : Store) (uid i : Int) :
    notified_of (add_user s uid) i = notified_of s i := by
  by_cases hs : (findUser s uid).isSome = true
  · rw [add_user_of_exists hs]
  · have h0 : findUser s uid = none := Option.not_isSome_iff_eq_none.mp (by simpa using hs)
    rw [add_user_of_absent h0]
    unfold notified_of
    rw [findUser_append]
    cases hfi : findUser s i with
    | some r => rfl
    | none =>
        rw [Option.none_or]
        by_cases hi : i = uid
        · subst hi
          unfold findUser
          rw [List.find?_cons_of_pos _ (by simp)]
        · unfold findUser
          rw [List.find?_cons_of_neg _ (by simp; omega)]
          rfl

/-- The call `process_referral` never changes any `goal_achieved_notified` read-back. -/
theorem notified_of_process_referral (s : Store) (u v i : Int) :
    notified_of (process_referral s u v).2 i = notified_of s i := by
  cases hu : findUser s u with
  | none =>
      have hres : process_referral s u v = (false, s) := by
        unfold process_referral
        rw [hu]
      rw [hres]
  | some r =>
      by_cases hc : r.invited_by = none ∧ u ≠ v
      · rw [process_referral_success hu hc.1 hc.2]
        show notified_of (increment_referrals (set_invited_by s u v) v) i = notified_of s i
        have h1 : notified_of (increment_referrals (set_invited_by s u v) v) i
            = notified_of (set_invited_by s u v) i :=
          notified_of_map _ (fun x => by split <;> rfl) (fun x => by split <;> rfl) _ i
        have h2 : notified_of (set_invited_by s u v) i = notified_of s i :=
          notified_of_map _ (fun x => by split <;> rfl) (fun x => by split <;> rfl) _ i
        rw [h1, h2]
      · have hres : process_referral s u v = (false, s) := by
          unfold process_referral
          rw [hu]
          simp [hc]
        rw [hres]

/-- Setting the flag for `j` does not change the read-back of another key. -/
theorem notified_of_set_goal_other {s : Store} {i j : Int} (hij : i ≠ j) :
    notified_of (set_goal_notified s j) i = notified_of s i := by
  unfold notified_of
  rw [findUser_set_goal_notified]
  cases hfi : findUser s i with
  | none => rfl
  | some w =>
      have hkey : w.user_id = i := (findUser_eq_some hfi).2
      simp [hkey, hij]

/-- The table after `check_and_notify_on_goal` is the old one or the old one
with the flag set. -/
theorem check_fst_cases (s : Store) (j : Int) (ok : Bool) :
    (check_and_notify_on_goal s j ok).1 = s
  ∨ (check_and_notify_on_goal s j ok).1 = set_goal_notified s j := by
  cases hj : findUser s j with
  | none =>
      have hres : check_and_notify_on_goal s j ok = (s, false) := by
        unfold check_and_notify_on_goal
        rw [hj]
      exact Or.inl (by rw [hres])
  | some r =>
      by_cases hc : REFERRAL_GOAL ≤ r.referrals ∧ r.goal_achieved_notified = false
      · cases ok with
        | false => exact Or.inl (by rw [check_qualifying_fail hj hc.1 hc.2])
        | true => exact Or.inr (by rw [check_qualifying_ok hj hc.1 hc.2])
      · have hres : check_and_notify_on_goal s j ok = (s, false) := by
          unfold check_and_notify_on_goal
          rw [hj]
          simp [hc]
        exact Or.inl (by rw [hres])

/-- Once the flag is set for `i`, one further call keeps it set and never
invokes the notifier for `i`. -/
theorem notified_step (s : Store) (op : Op) (i : Int) (h : notified_of s i = true) :
    notified_of (applyOp s op) i = true ∧ invokesFor s op i = false := by
  cases op with
  | ensure uid =>
      exact ⟨by rw [applyOp, notified_of_add_user]; exact h, rfl⟩
  | attr u v =>
      exact ⟨by rw [applyOp, notified_of_process_referral]; exact h, rfl⟩
  | check j ok =>
      by_cases hij : i = j
      · subst hij
        cases hfi : findUser s i with
        | none =>
            unfold notified_of at h
            rw [hfi] at h
            cases h
        | some r =>
            have hflag : r.goal_achieved_notified = true := by
              unfold notified_of at h
              rw [hfi] at h
              exact h
            have hres : check_and_notify_on_goal s i ok = (s, false) := by
              unfold check_and_notify_on_goal
              rw [hfi]
              simp [hflag]
            constructor
            · show notified_of (check_and_notify_on_goal s i ok).1 i = true
              rw [hres]
              exact h
            · show (i == i && (check_and_notify_on_goal s i ok).2) = false
              rw [hres]
              simp
      · constructor
        · show notified_of (check_and_notify_on_goal s j ok).1 i = true
          rcases check_fst_cases s j ok with hc | hc <;> rw [hc]
          · exact h
          · rw [notified_of_set_goal_other hij]
            exact h
        · show (j == i && (check_and_notify_on_goal s j ok).2) = false
          have : (j == i) = false := by simp; omega
          rw [this]
          rfl

/-- Once the flag is set for `i`, it stays set through any run and no call of
the run ever invokes the notifier for `i`. -/
theorem notified_run (s : Store) (ops : List Op) (i : Int) (h : notified_of s i = true) :
    notified_of (runOps s ops) i = true ∧ anyInvocation s ops i = false := by
  induction ops generalizing s with
  | nil => exact ⟨h, rfl⟩
  | cons op ops ih =>
      obtain ⟨h1, h2⟩ := notified_step s op i h
      obtain ⟨h3, h4⟩ := ih (applyOp s op) h1
      refine ⟨h3, ?_⟩
      show (invokesFor s op i || anyInvocation (applyOp s op) ops i) = false
      rw [h2, h4]
      rfl

/-- A single call can flip the flag of `i` from unset to set only if `i`'s
stored counter already reached the goal. -/
theorem notified_flip_needs_goal (s : Store) (op : Op) (i : Int)
    (h0 : notified_of s i = false) (h1 : notified_of (applyOp s op) i = true) :
    REFERRAL_GOAL ≤ get_user_referrals s i := by
  cases op with
  | ensure uid =>
      rw [applyOp, notified_of_add_user, h0] at h1
      cases h1
  | attr u v =>
      rw [applyOp, notified_of_process_referral, h0] at h1
      cases h1
  | check j ok =>
      have h1' : notified_of (check_and_notify_on_goal s j ok).1 i = true := h1
      by_cases hij : i = j
      · subst hij
        cases hfi : findUser s i with
        | none =>
            rcases check_fst_cases s i ok with hc | hc <;> rw [hc] at h1'
            · rw [h0] at h1'; cases h1'
            · unfold notified_of at h1'
              rw [findUser_set_goal_notified, hfi] at h1'
              cases h1'
        | some r =>
            by_cases hc : REFERRAL_GOAL ≤ r.referrals ∧ r.goal_achieved_notified = false
            · have hget : get_user_referrals s i = r.referrals := by
                unfold get_user_referrals
                rw [hfi]
              rw [hget]
              exact hc.1
            · have hres : check_and_notify_on_goal s i ok = (s, false) := by
                unfold check_and_notify_on_goal
                rw [hfi]
                simp [hc]
              rw [hres] at h1'
              have h1'' : notified_of s i = true := h1'
              rw [h0] at h1''
              cases h1''
      · rcases check_fst_cases s j ok with hc | hc <;> rw [hc] at h1'
        · rw [h0] at h1'; cases h1'
        · rw [notified_of_set_goal_other hij, h0] at h1'
          cases h1'

/-- C4: a qualifying evaluation invokes the notifier and, on success, sets
the flag; the flag turns on only when the stored counter has reached the
goal at that moment; and once set it stays set and no later call of any run
invokes the notifier for that inviter again. -/
theorem goal_notification_lifecycle :
    (∀ (s : Store) (i : Int) (r : UserRecord) (ok : Bool),
      findUser s i = some r → REFERRAL_GOAL ≤ r.referrals →
      r.goal_achieved_notified = false →
      (check_and_notify_on_goal s i ok).2 = true
      ∧ (ok = true → notified_of (check_and_notify_on_goal s i ok).1 i = true))
  ∧ (∀ (s : Store) (op : Op) (i : Int),
      notified_of s i = false → notified_of (applyOp s op) i = true →
      REFERRAL_GOAL ≤ get_user_referrals s i)
  ∧ (∀ (s : Store) (ops : List Op) (i : Int),
      notified_of s i = true →
      notified_of (runOps s ops) i = true ∧ anyInvocation s ops i = false) := by
  refine ⟨?_, notified_flip_needs_goal, notified_run⟩
  intro s i r ok h hgoal hflag
  cases ok with
  | false =>
      have h1 := check_qualifying_fail h hgoal hflag
      exact ⟨by rw [h1], fun hok => by cases hok⟩
  | true =>
      have h2 := check_qualifying_ok h hgoal hflag
      refine ⟨by rw [h2], fun _ => ?_⟩
      rw [h2]
      exact notified_of_set_goal_self h

/-- C4 witness: a qualifying evaluation delivers and sets the flag; a flip
implies the goal was reached; with the flag set, a later attribution plus
evaluation never invokes the notifier again. -/
theorem goal_notification_lifecycle_witness :
    ((check_and_notify_on_goal [⟨1, none, 10, false⟩] 1 true).2 = true
  ∧ notified_of (check_and_notify_on_goal [⟨1, none, 10, false⟩] 1 true).1 1 = true)
  ∧ REFERRAL_GOAL ≤ get_user_referrals [⟨1, none, 10, false⟩] 1
  ∧ (notified_of
      (runOps [⟨1, none, 10, true⟩, ⟨2, none, 0, false⟩]
        [Op.attr 2 1, Op.check 1 true]) 1 = true
  ∧ anyInvocation [⟨1, none, 10, true⟩, ⟨2, none, 0, false⟩]
        [Op.attr 2 1, Op.check 1 true] 1 = false) :=
  ⟨⟨(goal_notification_lifecycle.1 [⟨1, none, 10, false⟩] 1 ⟨1, none, 10, false⟩ true
      (by decide) (by decide) (by decide)).1,
    (goal_notification_lifecycle.1 [⟨1, none, 10, false⟩] 1 ⟨1, none, 10, false⟩ true
      (by decide) (by decide) (by decide)).2 rfl⟩,
   goal_notification_lifecycle.2.1 [⟨1, none, 10, false⟩] (Op.check 1 true) 1
      (by decide) (by decide),
   goal_notification_lifecycle.2.2 [⟨1, none, 10, true⟩, ⟨2, none, 0, false⟩]
      [Op.attr 2 1, Op.check 1 true] 1 (by decide)⟩

/-- The pass `attr_update` preserves keys. -/
theorem attr_update_key (u v : Int) (x : UserRecord) :
    (attr_update u v x).user_id = x.user_id := by
  unfold attr_update
  split
  · rfl
  · split <;> rfl

/-- The two sequential `UPDATE`s of a successful attribution equal one
row-wise `attr_update` pass (they touch disjoint keys since `u ≠ v`). -/
theorem attribution_as_map {s : Store} {u v : Int} (huv : u ≠ v) :
    increment_referrals (set_invited_by s u v) v = s.map (attr_update u v) := by
  unfold increment_referrals set_invited_by attr_update
  rw [List.map_map]
  apply List.map_congr_left
  intro x _
  by_cases h1 : x.user_id = u
  · simp [Function.comp, h1, huv]
  · by_cases h2 : x.user_id = v <;> simp [Function.comp, h1, h2, Ne.symm huv]

/-- A row-wise update that keeps `invited_by` keeps every points-at count. -/
theorem countP_invited_map (f : UserRecord → UserRecord)
    (hi : ∀ x, (f x).invited_by = x.invited_by) (s : Store) (t : Int) :
    List.countP (fun y => y.invited_by == some t) (s.map f)
      = List.countP (fun y => y.invited_by == some t) s := by
  rw [List.countP_map]
  apply List.countP_congr
  intro x _
  simp [Function.comp, hi]

/-- Counting effect of `set_invited_by` when every row keyed `a` is still
unattributed: rows pointing at `t` gain the rows keyed `a` if `b = t`. -/
theorem countP_invited_set (s : Store) (a b t : Int)
    (h : ∀ w ∈ s, w.user_id = a → w.invited_by = none) :
    List.countP (fun y => y.invited_by == some t) (set_invited_by s a b)
      = List.countP (fun y => y.invited_by == some t) s
        + (if b = t then List.countP (fun y => y.user_id == a) s else 0) := by
  induction s with
  | nil => simp [set_invited_by]
  | cons x tl ih =>
      have hx := h x (List.mem_cons_self x tl)
      have htl : ∀ w ∈ tl, w.user_id = a → w.invited_by = none :=
        fun w hw => h w (List.mem_cons_of_mem x hw)
      have ih' := ih htl
      by_cases hxa : x.user_id = a
      · have hnone := hx hxa
        by_cases hbt : b = t
        · simp [set_invited_by, List.countP_cons, hxa, hnone, hbt] at ih' ⊢
          omega
        · simp [set_invited_by, List.countP_cons, hxa, hnone, hbt] at ih' ⊢
          omega
      · by_cases hbt : b = t
        · simp [set_invited_by, List.countP_cons, hxa, hbt] at ih' ⊢
          omega
        · simp [set_invited_by, List.countP_cons, hxa, hbt] at ih' ⊢
          omega

/-- Under the PRIMARY KEY constraint, a present key is carried by exactly one
row. -/
theorem countP_key_eq_one {s : Store} {r : UserRecord}
    (hnd : nodupKeys s) (hr : r ∈ s) :
    List.countP (fun y => y.user_id == r.user_id) s = 1 := by
  have h1 : List.count r.user_id (s.map UserRecord.user_id) = 1 :=
    List.count_eq_one_of_mem hnd (List.mem_map_of_mem _ hr)
  calc List.countP (fun y => y.user_id == r.user_id) s
      = List.countP (fun x => x == r.user_id) (s.map UserRecord.user_id) := by
        rw [List.countP_map]
        rfl
    _ = 1 := h1

/-- Under the PRIMARY KEY constraint, every row carrying the looked-up key is
the found row. -/
theorem findUser_unique {s : Store} {a : Int} {r : UserRecord}
    (hnd : nodupKeys s) (hfind : findUser s a = some r) :
    ∀ w ∈ s, w.user_id = a → w = r := by
  intro w hw hk
  have hr := findUser_eq_some hfind
  exact List.inj_on_of_nodup_map hnd hw hr.1 (by rw [hk, hr.2])

/-- Any key-, link- and counter-preserving row-wise pass preserves the
invariant (used for the flag update). -/
theorem storeInv_map_of_preserves (f : UserRecord → UserRecord)
    (hk : ∀ x, (f x).user_id = x.user_id)
    (hi : ∀ x, (f x).invited_by = x.invited_by)
    (hr : ∀ x, (f x).referrals = x.referrals)
    {s : Store} (h : storeInv s) : storeInv (s.map f) := by
  obtain ⟨hnd, hie, hci⟩ := h
  refine ⟨?_, ?_, ?_⟩
  · unfold nodupKeys
    rw [List.map_map]
    have hcomp : (UserRecord.user_id ∘ f) = UserRecord.user_id := funext hk
    rw [hcomp]
    exact hnd
  · intro w hw j hj
    obtain ⟨x, hx, rfl⟩ := List.mem_map.mp hw
    rw [findUser_map f hk]
    have hx' : x.invited_by = some j := by rw [← hi x]; exact hj
    have hsome := hie x hx j hx'
    cases hfj : findUser s j with
    | none => rw [hfj] at hsome; simp at hsome
    | some z => simp
  · intro w hw
    obtain ⟨x, hx, rfl⟩ := List.mem_map.mp hw
    rw [countP_invited_map f hi]
    simp only [hk, hr]
    exact hci x hx

/-- The call `add_user` preserves the invariant. -/
theorem storeInv_add_user (s : Store) (uid : Int) (h : storeInv s) :
    storeInv (add_user s uid) := by
  obtain ⟨hnd, hie, hci⟩ := h
  by_cases hs : (findUser s uid).isSome = true
  · rw [add_user_of_exists hs]
    exact ⟨hnd, hie, hci⟩
  · have h0 : findUser s uid = none := Option.not_isSome_iff_eq_none.mp (by simpa using hs)
    rw [add_user_of_absent h0]
    have hnotin : uid ∉ s.map UserRecord.user_id := by
      intro hmem
      obtain ⟨r, hr, hk⟩ := List.mem_map.mp hmem
      exact findUser_eq_none.mp h0 r hr hk
    have hnopoint : ∀ w ∈ s, ¬(w.invited_by == some uid) = true := by
      intro w hw hp
      have hwb : w.invited_by = some uid := by simpa using hp
      have hsome := hie w hw uid hwb
      rw [h0] at hsome
      simp at hsome
    refine ⟨?_, ?_, ?_⟩
    · unfold nodupKeys
      rw [List.map_append, List.nodup_append]
      refine ⟨hnd, List.nodup_singleton _, ?_⟩
      have hm : List.map UserRecord.user_id [(⟨uid, none, 0, false⟩ : UserRecord)] = [uid] := rfl
      rw [hm, List.disjoint_singleton]
      exact hnotin
    · intro r hr j hj
      rw [findUser_append]
      rcases List.mem_append.mp hr with h1 | h1
      · have hsome := hie r h1 j hj
        cases hfj : findUser s j with
        | none => rw [hfj] at hsome; simp at hsome
        | some w => rfl
      · have hrd : r = ⟨uid, none, 0, false⟩ := by simpa using h1
        rw [hrd] at hj
        cases hj
    · intro r hr
      rcases List.mem_append.mp hr with h1 | h1
      · rw [List.countP_append]
        have hd0 : List.countP (fun y => y.invited_by == some r.user_id)
            [(⟨uid, none, 0, false⟩ : UserRecord)] = 0 := by
          simp [List.countP_cons]
        rw [hd0]
        simpa using hci r h1
      · have hrd : r = ⟨uid, none, 0, false⟩ := by simpa using h1
        subst hrd
        show (0 : Nat) = List.countP (fun y => y.invited_by == some uid)
          (s ++ [⟨uid, none, 0, false⟩])
        rw [List.countP_append]
        have hs0 : List.countP (fun y => y.invited_by == some uid) s = 0 :=
          List.countP_eq_zero.mpr hnopoint
        have hd0 : List.countP (fun y => y.invited_by == some uid)
            [(⟨uid, none, 0, false⟩ : UserRecord)] = 0 := by
          simp [List.countP_cons]
        rw [hs0, hd0]

/-- The call `process_referral` preserves the invariant when both rows exist. -/
theorem storeInv_process {s : Store} {u v : Int} (h : storeInv s)
    (hu : (findUser s u).isSome = true) (hv : (findUser s v).isSome = true) :
    storeInv (process_referral s u v).2 := by
  obtain ⟨hnd, hie, hci⟩ := h
  cases hfu : findUser s u with
  | none => rw [hfu] at hu; simp at hu
  | some r =>
      by_cases hc : r.invited_by = none ∧ u ≠ v
      · rw [process_referral_success hfu hc.1 hc.2]
        show storeInv (increment_referrals (set_invited_by s u v) v)
        rw [attribution_as_map hc.2]
        have hkeyr : r.user_id = u := (findUser_eq_some hfu).2
        have hrmem : r ∈ s := (findUser_eq_some hfu).1
        have huniq : ∀ w ∈ s, w.user_id = u → w = r := findUser_unique hnd hfu
        have hukeep : ∀ w ∈ s, w.user_id = u → w.invited_by = none := by
          intro w hw hk
          rw [huniq w hw hk]
          exact hc.1
        have hcount1 : List.countP (fun y => y.user_id == u) s = 1 := by
          have hone := countP_key_eq_one hnd hrmem
          rw [hkeyr] at hone
          exact hone
        have hcnt : ∀ t, List.countP (fun y => y.invited_by == some t)
              (s.map (attr_update u v))
            = List.countP (fun y => y.invited_by == some t) s
              + (if v = t then 1 else 0) := by
          intro t
          rw [← attribution_as_map hc.2]
          unfold increment_referrals
          rw [countP_invited_map _ (fun x => by split <;> rfl)]
          rw [countP_invited_set s u v t hukeep, hcount1]
        refine ⟨?_, ?_, ?_⟩
        · unfold nodupKeys
          rw [List.map_map]
          have hcomp : (UserRecord.user_id ∘ attr_update u v) = UserRecord.user_id :=
            funext (attr_update_key u v)
          rw [hcomp]
          exact hnd
        · intro w hw j hj
          obtain ⟨x, hx, rfl⟩ := List.mem_map.mp hw
          rw [findUser_map _ (attr_update_key u v)]
          have hSome : ∀ k, (Option.map (attr_update u v) (findUser s k)).isSome
              = (findUser s k).isSome := by
            intro k
            cases findUser s k <;> rfl
          rw [hSome j]
          by_cases h1 : x.user_id = u
          · have hx_inv : (attr_update u v x).invited_by = some v := by
              unfold attr_update
              simp [h1]
            rw [hx_inv] at hj
            obtain rfl : v = j := by injection hj
            exact hv
          · have hx_inv : (attr_update u v x).invited_by = x.invited_by := by
              unfold attr_update
              rw [if_neg (by simp [h1])]
              split <;> rfl
            rw [hx_inv] at hj
            exact hie x hx j hj
        · intro w hw
          obtain ⟨x, hx, rfl⟩ := List.mem_map.mp hw
          rw [hcnt]
          simp only [attr_update_key]
          by_cases h1 : x.user_id = u
          · have hval : (attr_update u v x).referrals = x.referrals := by
              unfold attr_update
              simp [h1]
            have hvu : ¬(v = u) := fun hh => hc.2 hh.symm
            rw [hval, h1, if_neg hvu]
            have hbase := hci x hx
            rw [h1] at hbase
            omega
          · by_cases h2 : x.user_id = v
            · have hval : (attr_update u v x).referrals = x.referrals + 1 := by
                unfold attr_update
                rw [if_neg (by simp [h1])]
                simp [h2]
              rw [hval, h2, if_pos rfl]
              have hbase := hci x hx
              rw [h2] at hbase
              omega
            · have hval : (attr_update u v x).referrals = x.referrals := by
                unfold attr_update
                rw [if_neg (by simp [h1]), if_neg (by simp [h2])]
              have hvx : ¬(v = x.user_id) := fun hh => h2 hh.symm
              rw [hval, if_neg hvx]
              have hbase := hci x hx
              omega
      · have hres : process_referral s u v = (false, s) := by
          unfold process_referral
          rw [hfu]
          simp [hc]
        rw [hres]
        exact ⟨hnd, hie, hci⟩

/-- The call `check_and_notify_on_goal` preserves the invariant. -/
theorem storeInv_check (s : Store) (j : Int) (ok : Bool) (h : storeInv s) :
    storeInv (check_and_notify_on_goal s j ok).1 := by
  rcases check_fst_cases s j ok with hc | hc <;> rw [hc]
  · exact h
  · exact storeInv_map_of_preserves _ (fun x => by split <;> rfl)
      (fun x => by split <;> rfl) (fun x => by split <;> rfl) h

/-- Any single call meeting its precondition preserves the invariant. -/
theorem storeInv_applyOp {s : Store} (op : Op) (h : storeInv s)
    (hpre : opPre s op = true) : storeInv (applyOp s op) := by
  cases op with
  | ensure uid => exact storeInv_add_user s uid h
  | attr u v =>
      have hpre' : (findUser s u).isSome = true ∧ (findUser s v).isSome = true := by
        simpa [opPre, Bool.and_eq_true] using hpre
      exact storeInv_process h hpre'.1 hpre'.2
  | check j ok => exact storeInv_check s j ok h

/-- Any run whose preconditions hold preserves the invariant. -/
theorem storeInv_runOps {s : Store} (ops : List Op) (h : storeInv s)
    (hpre : preOK s ops = true) : storeInv (runOps s ops) := by
  induction ops generalizing s with
  | nil => exact h
  | cons op ops ih =>
      have hpre' : opPre s op = true ∧ preOK (applyOp s op) ops = true := by
        simpa [preOK, Bool.and_eq_true] using hpre
      exact ih (storeInv_applyOp op h hpre'.1) hpre'.2

/-- The freshly created table satisfies the invariant. -/
theorem storeInv_empty : storeInv [] := by
  refine ⟨?_, ?_, ?_⟩
  · simp [nodupKeys]
  · intro r hr
    cases hr
  · intro r hr
    cases hr

/-- C1: after any run of `add_user`, `process_referral` and
`check_and_notify_on_goal` calls from the fresh table in which every
`process_referral` call's precondition holds (both rows already exist),
every user's referral count equals the number of rows whose `invited_by`
points at that user. -/
theorem referral_count_invariant (ops : List Op)
    (h : preOK [] ops = true) (U : Int) :
    get_user_referrals (runOps [] ops) U
      = List.countP (fun v => v.invited_by == some U) (runOps [] ops) := by
  obtain ⟨hnd, hie, hci⟩ := storeInv_runOps ops storeInv_empty h
  cases hU : findUser (runOps [] ops) U with
  | none =>
      have hz : List.countP (fun v => v.invited_by == some U) (runOps [] ops) = 0 := by
        rw [List.countP_eq_zero]
        intro w hw hp
        have hwb : w.invited_by = some U := by simpa using hp
        have hsome := hie w hw U hwb
        rw [hU] at hsome
        simp at hsome
      unfold get_user_referrals
      rw [hU, hz]
  | some r =>
      have hkey := (findUser_eq_some hU).2
      have hmem := (findUser_eq_some hU).1
      have hbase := hci r hmem
      rw [hkey] at hbase
      unfold get_user_referrals
      rw [hU]
      exact hbase

/-- C1 witness: a concrete run creating two users, attributing one and
evaluating the goal, checked against the count for user `1`. -/
theorem referral_count_invariant_witness :
    preOK [] [Op.ensure 1, Op.ensure 2, Op.attr 2 1, Op.check 1 true] = true
  ∧ get_user_referrals (runOps [] [Op.ensure 1, Op.ensure 2, Op.attr 2 1, Op.check 1 true]) 1
      = List.countP (fun v => v.invited_by == some 1)
          (runOps [] [Op.ensure 1, Op.ensure 2, Op.attr 2 1, Op.check 1 true]) :=
  ⟨by decide,
   referral_count_invariant [Op.ensure 1, Op.ensure 2, Op.attr 2 1, Op.check 1 true]
     (by decide) 1⟩
